import Mathlib

/-!
Verification of the segment tree implemented by the four variants of this
repository (src/c/segtree.c, src/segtree.c, src/segtree.cpp,
src/cpp/generic_segtree.cpp).  All four share one design: a flat 1-indexed
array of size 2*N, N = SuperCeiling n, leaves at [N, 2N), point Assign with
ancestor recomputation, and a recursive range query f.  The embedding below
is generic over the element type and the stored operator, matching
generic_segtree.cpp; the int variants arise by instantiating the operator
with glue (integer addition) and the identity with 0.
-/

namespace Seg

/-- Embeds the SegTree struct: identity element, the combining operator
(glue_func of the generic variant; the int variants use the file-level glue,
recorded here as a field fixed at construction), logical size n, capacity N,
and the backing storage A (a flat sequence of length 2*N, index 0 unused). -/
structure SegTree (α : Type) where
  identity : α
  glue : α → α → α
  n : ℕ
  N : ℕ
  A : List α

/-- Embeds the loop body of SuperCeiling: starting from p, double p while
p < n.  The first argument is an iteration bound; it is inert whenever
n ≤ gas + p (superCeilingAux_gas_irrel), which holds for the actual call
with gas = n and p = 1, so the bound changes nothing against the C loop. -/
def SuperCeilingAux : ℕ → ℕ → ℕ → ℕ
  | 0, _, p => p
  | gas + 1, n, p => if p < n then SuperCeilingAux gas n (2 * p) else p

/-- Embeds SuperCeiling: the smallest power of two greater than or equal
to n, computed by doubling p from 1. -/
def SuperCeiling (n : ℕ) : ℕ := SuperCeilingAux n n 1

/-- Embeds Parent: integer halving of a storage index. -/
def Parent (i : ℕ) : ℕ := i / 2

/-- Embeds LeftChild. -/
def LeftChild (i : ℕ) : ℕ := 2 * i

/-- Embeds RightChild. -/
def RightChild (i : ℕ) : ℕ := 2 * i + 1

/-- Embeds glue of the int variants: integer addition (C int modelled as
unbounded integers, machine width being out of the spec's scope). -/
def glue (a b : ℤ) : ℤ := a + b

/-- Embeds SegTreeInit / the constructors: N = SuperCeiling n, storage of
length 2*N with every slot set to the identity (the int variants write 0
and set identity to 0, the same value).  Fields in order: identity, glue,
n, N, A. -/
def SegTreeInit (g : α → α → α) (e : α) (n : ℕ) : SegTree α :=
  ⟨e, g, n, SuperCeiling n, List.replicate (2 * SuperCeiling n) e⟩

/-- Embeds the ancestor loop of Assign: while 0 < u, overwrite A[u] with
glue of its two children and step to Parent u.  The gas argument bounds the
iteration count; since u halves each step, any gas with u < 2^gas is inert
(the loop exits at u = 0 well before gas runs out), which
updLoopAux_gas_irrel proves.  Reads use getD with the tree's identity as
default; every read in the verified runs is in bounds. -/
def updLoopAux (g : α → α → α) (d : α) : ℕ → List α → ℕ → List α
  | 0, A, _ => A
  | gas + 1, A, u =>
    if 0 < u then
      updLoopAux g d gas
        (A.set u (g (A.getD (LeftChild u) d) (A.getD (RightChild u) d)))
        (Parent u)
    else A

/-- Embeds Assign: write x at leaf i + N, then recompute the ancestor
chain.  The gas i + N strictly exceeds the loop's iteration count
(Parent (i+N) < 2 ^ (i+N)), so the loop always reaches u = 0. -/
def Assign (s : SegTree α) (i : ℕ) (x : α) : SegTree α :=
  ⟨s.identity, s.glue, s.n, s.N,
    updLoopAux s.glue s.identity (i + s.N) (s.A.set (i + s.N) x)
      (Parent (i + s.N))⟩

/-- glue lifted to the fuel monad: the value of glue(t1, t2) when both
recursive branches came back, and none as soon as either branch ran out of
fuel (in C the call would still be stuck inside that branch). -/
def glueOpt (s : SegTree α) : Option α → Option α → Option α
  | some t1, some t2 => some (s.glue t1 t2)
  | _, _ => none

/-- Embeds the recursive query f.  The C function is genuinely partial (it
recurses forever on some inputs, see the C8 analysis), so the embedding
counts recursion depth with fuel and returns none when the fuel runs out;
a run of the C code corresponds to the value at any sufficiently large
fuel, and none at every fuel is a genuine infinite recursion. -/
def f (s : SegTree α) : ℕ → ℕ → ℕ → ℕ → ℕ → ℕ → Option α
  | 0, _, _, _, _, _ => none
  | fuel + 1, v, l, r, i, j =>
    if l = i ∧ r = j then
      some (s.A.getD v s.identity)
    else
      glueOpt s
        (if i ≤ (l + r) / 2 then
          f s fuel (LeftChild v) l ((l + r) / 2) i (min ((l + r) / 2) j)
        else some s.identity)
        (if (l + r) / 2 < j then
          f s fuel (RightChild v) ((l + r) / 2 + 1) r (max i ((l + r) / 2 + 1)) j
        else some s.identity)

/-- Embeds RangeSum: the query entry point f(1, 0, N-1, i, j). -/
def RangeSum (s : SegTree α) (fuel i j : ℕ) : Option α :=
  f s fuel 1 0 (s.N - 1) i j

/-- Helper for rangeFold: gas is the number of combines left, so
rangeFoldAux g lv gas i folds lv over positions i .. i + gas,
right-nested. -/
def rangeFoldAux (g : α → α → α) (lv : ℕ → α) : ℕ → ℕ → α
  | 0, i => lv i
  | gas + 1, i => g (lv i) (rangeFoldAux g lv gas (i + 1))

/-- The left-to-right fold of the spec: g (lv i) (g (lv (i+1)) (... lv j)),
with the grouping fixed right-nested exactly as written there. -/
def rangeFold (g : α → α → α) (lv : ℕ → α) (i j : ℕ) : α :=
  rangeFoldAux g lv (j - i) i

/-- The last value a sequence of (index, value) assignments gives to
logical position k, or e when the sequence never assigns k. -/
def lastVal (e : α) (ops : List (ℕ × α)) (k : ℕ) : α :=
  ops.foldl (fun acc op => if op.1 = k then op.2 else acc) e

/-- A tree built as the spec describes: construction with operator g,
identity e and logical size n, followed by the given Assign calls in
order. -/
def buildTree (g : α → α → α) (e : α) (n : ℕ) (ops : List (ℕ × α)) :
    SegTree α :=
  ops.foldl (fun s op => Assign s op.1 op.2) (SegTreeInit g e n)

/-- The state invariants of the spec, with val recording every leaf value:
construction data intact, storage length 2*N, every internal node the glue
of its children, and leaf N + k holding val k. -/
def Good (g : α → α → α) (e : α) (n : ℕ) (val : ℕ → α) (s : SegTree α) :
    Prop :=
  s.identity = e ∧ s.glue = g ∧ s.n = n ∧ s.N = SuperCeiling n ∧
  s.A.length = 2 * s.N ∧
  (∀ w, 1 ≤ w → 2 * w + 1 < s.A.length →
    s.A.getD w e = g (s.A.getD (2 * w) e) (s.A.getD (2 * w + 1) e)) ∧
  (∀ k, k < s.N → s.A.getD (s.N + k) e = val k)

/-- The query on (i, j) terminates: some fuel suffices for f to return a
value, i.e. the C recursion reaches its base cases. -/
def Terminates (s : SegTree α) (i j : ℕ) : Prop :=
  ∃ fuel, (RangeSum s fuel i j).isSome

/-- Embeds SegTreeInit of the src/segtree.c variant, whose body sets n, N
and the zero-filled storage but never writes the identity field; the
parameter idv stands for the indeterminate startup content of that field,
which the rest of the file (the query f) goes on to read. -/
def SegTreeInitV (idv : ℤ) (n : ℕ) : SegTree ℤ :=
  ⟨idv, glue, n, SuperCeiling n, List.replicate (2 * SuperCeiling n) 0⟩

theorem superCeilingAux_stop (gas n p : ℕ) (h : n ≤ p) :
    SuperCeilingAux gas n p = p := by
  cases gas with
  | zero => rfl
  | succ g => rw [SuperCeilingAux, if_neg (by omega)]

theorem superCeilingAux_gas_irrel (g1 : ℕ) :
    ∀ g2 p n, 0 < p → n ≤ g1 + p → n ≤ g2 + p →
      SuperCeilingAux g1 n p = SuperCeilingAux g2 n p := by
  induction g1 with
  | zero =>
    intro g2 p n hp h1 h2
    rw [SuperCeilingAux, superCeilingAux_stop g2 n p (by omega)]
  | succ g ih =>
    intro g2 p n hp h1 h2
    by_cases hpn : p < n
    · obtain ⟨g2m, rfl⟩ : ∃ g2m, g2 = g2m + 1 := by
        cases g2 with
        | zero => omega
        | succ m => exact ⟨m, rfl⟩
      rw [SuperCeilingAux, if_pos hpn, SuperCeilingAux, if_pos hpn]
      exact ih g2m (2 * p) n (by omega) (by omega) (by omega)
    · rw [superCeilingAux_stop _ n p (by omega),
        superCeilingAux_stop _ n p (by omega)]

theorem superCeilingAux_ge (gas : ℕ) :
    ∀ p n, 0 < p → n ≤ gas + p → n ≤ SuperCeilingAux gas n p := by
  induction gas with
  | zero =>
    intro p n hp h
    rw [SuperCeilingAux]; omega
  | succ g ih =>
    intro p n hp h
    by_cases hpn : p < n
    · rw [SuperCeilingAux, if_pos hpn]
      exact ih (2 * p) n (by omega) (by omega)
    · rw [SuperCeilingAux, if_neg hpn]; omega

theorem superCeilingAux_pow (gas : ℕ) :
    ∀ p n, (∃ t, p = 2 ^ t) → ∃ k, SuperCeilingAux gas n p = 2 ^ k := by
  induction gas with
  | zero =>
    intro p n hp
    rw [SuperCeilingAux]; exact hp
  | succ g ih =>
    intro p n hp
    obtain ⟨t, rfl⟩ := hp
    by_cases hpn : 2 ^ t < n
    · rw [SuperCeilingAux, if_pos hpn]
      exact ih (2 * 2 ^ t) n ⟨t + 1, by ring⟩
    · rw [SuperCeilingAux, if_neg hpn]; exact ⟨t, rfl⟩

theorem superCeilingAux_min (gas : ℕ) :
    ∀ p n q, (∃ t, p = 2 ^ t) → (∃ j, q = 2 ^ j) → n ≤ q → p ≤ q →
      SuperCeilingAux gas n p ≤ q := by
  induction gas with
  | zero =>
    intro p n q _ _ _ hpq
    rw [SuperCeilingAux]; exact hpq
  | succ g ih =>
    intro p n q hp hq hnq hpq
    obtain ⟨t, rfl⟩ := hp
    obtain ⟨j, rfl⟩ := hq
    by_cases hpn : 2 ^ t < n
    · rw [SuperCeilingAux, if_pos hpn]
      refine ih (2 * 2 ^ t) n (2 ^ j) ⟨t + 1, by ring⟩ ⟨j, rfl⟩ hnq ?_
      have hlt : (2 : ℕ) ^ t < 2 ^ j := by omega
      have htj : t < j := (Nat.pow_lt_pow_iff_right (by omega)).mp hlt
      calc 2 * 2 ^ t = 2 ^ (t + 1) := by ring
        _ ≤ 2 ^ j := Nat.pow_le_pow_right (by omega) (by omega)
    · rw [SuperCeilingAux, if_neg hpn]; exact hpq

theorem SuperCeiling_ge (n : ℕ) : n ≤ SuperCeiling n :=
  superCeilingAux_ge n 1 n (by omega) (by omega)

theorem SuperCeiling_pow (n : ℕ) : ∃ k, SuperCeiling n = 2 ^ k :=
  superCeilingAux_pow n 1 n ⟨0, rfl⟩

theorem SuperCeiling_pos (n : ℕ) : 0 < SuperCeiling n := by
  obtain ⟨k, hk⟩ := SuperCeiling_pow n
  rw [hk]; positivity

theorem SuperCeiling_min (n q : ℕ) (hq : ∃ j, q = 2 ^ j) (hnq : n ≤ q) :
    SuperCeiling n ≤ q := by
  obtain ⟨j, rfl⟩ := hq
  exact superCeilingAux_min n 1 n (2 ^ j) ⟨0, rfl⟩ ⟨j, rfl⟩ hnq
    (Nat.one_le_two_pow)

theorem SuperCeiling_of_pow (k : ℕ) : SuperCeiling (2 ^ k) = 2 ^ k :=
  Nat.le_antisymm (SuperCeiling_min _ _ ⟨k, rfl⟩ le_rfl) (SuperCeiling_ge _)

theorem SuperCeiling_mono (m n : ℕ) (h : m ≤ n) :
    SuperCeiling m ≤ SuperCeiling n :=
  SuperCeiling_min m (SuperCeiling n) (SuperCeiling_pow n)
    (le_trans h (SuperCeiling_ge n))

theorem getD_set_self (A : List α) (i : ℕ) (a d : α) (h : i < A.length) :
    (A.set i a).getD i d = a := by
  rw [List.getD_eq_getElem?_getD, List.getElem?_set_self h]; rfl

theorem getD_set_ne (A : List α) (i j : ℕ) (a d : α) (h : i ≠ j) :
    (A.set i a).getD j d = A.getD j d := by
  rw [List.getD_eq_getElem?_getD, List.getElem?_set_ne h,
    ← List.getD_eq_getElem?_getD]

theorem getD_replicate_self (m k : ℕ) (e : α) :
    (List.replicate m e).getD k e = e := by
  rw [List.getD_eq_getElem?_getD, List.getElem?_replicate]
  by_cases h : k < m
  · rw [if_pos h]; rfl
  · rw [if_neg h]; rfl

theorem div_pow_succ (u t : ℕ) : u / 2 ^ (t + 1) = u / 2 / 2 ^ t := by
  rw [Nat.div_div_eq_div_mul, pow_succ, mul_comm]

theorem updLoopAux_length (g : α → α → α) (d : α) :
    ∀ gas A u, (updLoopAux g d gas A u).length = A.length := by
  intro gas
  induction gas with
  | zero => intro A u; rfl
  | succ g2 ih =>
    intro A u
    by_cases hu : 0 < u
    · rw [updLoopAux, if_pos hu, ih, List.length_set]
    · rw [updLoopAux, if_neg hu]

theorem updLoopAux_zero (g : α → α → α) (d : α) (gas : ℕ) (A : List α) :
    updLoopAux g d gas A 0 = A := by
  cases gas with
  | zero => rfl
  | succ g2 => rw [updLoopAux, if_neg (by omega)]

theorem updLoopAux_gas_irrel (g : α → α → α) (d : α) (g1 : ℕ) :
    ∀ g2 A u, u < 2 ^ g1 → u < 2 ^ g2 →
      updLoopAux g d g1 A u = updLoopAux g d g2 A u := by
  induction g1 with
  | zero =>
    intro g2 A u h1 h2
    have hu : u = 0 := by simpa using Nat.lt_one_iff.mp (by simpa using h1)
    rw [hu, updLoopAux_zero, updLoopAux_zero]
  | succ gm ih =>
    intro g2 A u h1 h2
    by_cases hu : 0 < u
    · obtain ⟨g2m, rfl⟩ : ∃ g2m, g2 = g2m + 1 := by
        cases g2 with
        | zero => simp at h2; omega
        | succ m => exact ⟨m, rfl⟩
      rw [updLoopAux, if_pos hu, updLoopAux, if_pos hu]
      have e1 : (2 : ℕ) ^ (gm + 1) = 2 ^ gm * 2 := pow_succ 2 gm
      have e2 : (2 : ℕ) ^ (g2m + 1) = 2 ^ g2m * 2 := pow_succ 2 g2m
      exact ih g2m _ (Parent u) (by unfold Parent; omega) (by unfold Parent; omega)
    · have hu0 : u = 0 := by omega
      rw [hu0, updLoopAux_zero, updLoopAux_zero]

theorem updLoopAux_high (g : α → α → α) (d : α) :
    ∀ gas A u w dflt, u < w →
      (updLoopAux g d gas A u).getD w dflt = A.getD w dflt := by
  intro gas
  induction gas with
  | zero => intro A u w dflt hw; rfl
  | succ g2 ih =>
    intro A u w dflt hw
    by_cases hu : 0 < u
    · rw [updLoopAux, if_pos hu, ih _ _ w dflt (by unfold Parent; omega),
        getD_set_ne _ _ _ _ _ (by omega)]
    · rw [updLoopAux, if_neg hu]

theorem updLoopAux_inv (g : α → α → α) (d : α) :
    ∀ gas u A, u < 2 ^ gas →
      (∀ w, 1 ≤ w → 2 * w + 1 < A.length → (∀ t, u / 2 ^ t ≠ w) →
        A.getD w d = g (A.getD (2 * w) d) (A.getD (2 * w + 1) d)) →
      ∀ w, 1 ≤ w → 2 * w + 1 < A.length →
        (updLoopAux g d gas A u).getD w d =
          g ((updLoopAux g d gas A u).getD (2 * w) d)
            ((updLoopAux g d gas A u).getD (2 * w + 1) d) := by
  intro gas
  induction gas with
  | zero =>
    intro u A hgas hpre w hw1 hw2
    have hu : u = 0 := by simpa using Nat.lt_one_iff.mp (by simpa using hgas)
    subst hu
    exact hpre w hw1 hw2 (fun t => by simp [Nat.zero_div]; omega)
  | succ gm ih =>
    intro u A hgas hpre w hw1 hw2
    by_cases hu : 0 < u
    · rw [updLoopAux, if_pos hu]
      have hlen2 : (A.set u (g (A.getD (LeftChild u) d)
          (A.getD (RightChild u) d))).length = A.length := List.length_set ..
      have hgas2 : Parent u < 2 ^ gm := by
        have e1 : (2 : ℕ) ^ (gm + 1) = 2 ^ gm * 2 := pow_succ 2 gm
        unfold Parent; omega
      refine ih (Parent u)
        (A.set u (g (A.getD (LeftChild u) d) (A.getD (RightChild u) d)))
        hgas2 ?_ w hw1 (by rw [hlen2]; exact hw2)
      intro w2 hw21 hw22 hpath2
      rw [hlen2] at hw22
      simp only [LeftChild, RightChild]
      by_cases hwu : w2 = u
      · subst hwu
        rw [getD_set_self _ _ _ _ (by omega),
          getD_set_ne _ _ _ _ _ (by omega), getD_set_ne _ _ _ _ _ (by omega)]
      · have hpath : ∀ t, u / 2 ^ t ≠ w2 := by
          intro t
          cases t with
          | zero => simpa using fun h => hwu (by omega)
          | succ t2 =>
            rw [div_pow_succ]
            exact hpath2 t2
        have hp0 : u / 2 ≠ w2 := by
          have := hpath2 0
          simpa [Parent] using this
        rw [getD_set_ne _ _ _ _ _ (by omega),
          getD_set_ne _ _ _ _ _ (fun h => hp0 (by omega)),
          getD_set_ne _ _ _ _ _ (fun h => hp0 (by omega))]
        exact hpre w2 hw21 hw22 hpath
    · rw [updLoopAux, if_neg hu]
      have hu0 : u = 0 := by omega
      subst hu0
      exact hpre w hw1 hw2 (fun t => by simp [Nat.zero_div]; omega)

theorem Assign_good (g : α → α → α) (e : α) (n : ℕ) (val : ℕ → α)
    (s : SegTree α) (i : ℕ) (x : α) (hG : Good g e n val s) (hi : i < s.N) :
    Good g e n (fun k => if i = k then x else val k) (Assign s i x) := by
  obtain ⟨hid, hglue, hn, hN, hlen, hinv, hleaf⟩ := hG
  subst hid hglue hn
  unfold Assign Good
  refine ⟨rfl, rfl, rfl, hN, ?_, ?_, ?_⟩
  · dsimp only
    rw [updLoopAux_length, List.length_set]
    exact hlen
  · dsimp only
    intro w hw1 hw2
    rw [updLoopAux_length, List.length_set] at hw2
    have hgas : Parent (i + s.N) < 2 ^ (i + s.N) := by
      have := Nat.lt_two_pow (i + s.N)
      unfold Parent; omega
    refine updLoopAux_inv s.glue s.identity (i + s.N) (Parent (i + s.N))
      (s.A.set (i + s.N) x) hgas ?_ w hw1 (by rw [List.length_set]; exact hw2)
    intro w2 hw21 hw22 hpath2
    rw [List.length_set] at hw22
    have hp0 : Parent (i + s.N) / 2 ^ 0 ≠ w2 := hpath2 0
    simp only [Parent, pow_zero, Nat.div_one] at hp0
    have hne1 : i + s.N ≠ w2 := by omega
    have hne2 : i + s.N ≠ 2 * w2 := fun h => hp0 (by omega)
    have hne3 : i + s.N ≠ 2 * w2 + 1 := fun h => hp0 (by omega)
    rw [getD_set_ne _ _ _ _ _ hne1, getD_set_ne _ _ _ _ _ hne2,
      getD_set_ne _ _ _ _ _ hne3]
    exact hinv w2 hw21 hw22
  · dsimp only
    intro k hk
    have hhigh : Parent (i + s.N) < s.N + k := by
      unfold Parent; omega
    rw [updLoopAux_high _ _ _ _ _ _ _ hhigh]
    by_cases hik : i = k
    · subst hik
      rw [if_pos rfl, show s.N + i = i + s.N by omega,
        getD_set_self _ _ _ _ (by omega)]
    · rw [if_neg hik, getD_set_ne _ _ _ _ _ (by omega)]
      exact hleaf k hk

theorem init_good (g : α → α → α) (e : α) (n : ℕ) (hee : g e e = e) :
    Good g e n (fun _ => e) (SegTreeInit g e n) := by
  unfold Good SegTreeInit
  refine ⟨rfl, rfl, rfl, rfl, by simp, ?_, ?_⟩
  · intro w hw1 hw2
    rw [getD_replicate_self, getD_replicate_self, getD_replicate_self, hee]
  · intro k hk
    rw [getD_replicate_self]

theorem buildAux_good (g : α → α → α) (e : α) (n : ℕ) :
    ∀ (ops : List (ℕ × α)) (s : SegTree α) (val : ℕ → α), Good g e n val s →
      (∀ op ∈ ops, op.1 < s.N) →
      Good g e n
        (fun k =>
          ops.foldl (fun acc op => if op.1 = k then op.2 else acc) (val k))
        (ops.foldl (fun t op => Assign t op.1 op.2) s) := by
  intro ops
  induction ops with
  | nil => intro s val hG hops; simpa using hG
  | cons op ops ih =>
    intro s val hG hops
    simp only [List.foldl_cons]
    have h1 : op.1 < s.N := hops op (List.mem_cons_self op ops)
    have hG2 := Assign_good g e n val s op.1 op.2 hG h1
    have hN : (Assign s op.1 op.2).N = s.N := rfl
    exact ih (Assign s op.1 op.2) _ hG2
      (fun op2 h2 => by rw [hN]; exact hops op2 (List.mem_cons_of_mem _ h2))

theorem build_good (g : α → α → α) (e : α) (n : ℕ) (ops : List (ℕ × α))
    (hee : g e e = e) (hops : ∀ op ∈ ops, op.1 < SuperCeiling n) :
    Good g e n (lastVal e ops) (buildTree g e n ops) := by
  have h0 := init_good g e n hee
  have hN : (SegTreeInit g e n).N = SuperCeiling n := rfl
  have h1 := buildAux_good g e n ops (SegTreeInit g e n) (fun _ => e) h0
    (fun op h => by rw [hN]; exact hops op h)
  exact h1

theorem rangeFold_self (g : α → α → α) (lv : ℕ → α) (i : ℕ) :
    rangeFold g lv i i = lv i := by
  unfold rangeFold
  rw [Nat.sub_self]
  rfl

theorem rangeFold_step (g : α → α → α) (lv : ℕ → α) (i j : ℕ) (h : i < j) :
    rangeFold g lv i j = g (lv i) (rangeFold g lv (i + 1) j) := by
  obtain ⟨d, hd⟩ : ∃ d, j - i = d + 1 := ⟨j - i - 1, by omega⟩
  unfold rangeFold
  rw [hd, show j - (i + 1) = d by omega]
  rfl

theorem rangeFold_congr (g : α → α → α) (lv lv2 : ℕ → α) :
    ∀ d i j, j - i = d → i ≤ j → (∀ k, i ≤ k → k ≤ j → lv k = lv2 k) →
      rangeFold g lv i j = rangeFold g lv2 i j := by
  intro d
  induction d with
  | zero =>
    intro i j hd hij hk
    have hji : j = i := by omega
    subst hji
    rw [rangeFold_self, rangeFold_self]
    exact hk j le_rfl le_rfl
  | succ dm ih =>
    intro i j hd hij hk
    have hij2 : i < j := by omega
    rw [rangeFold_step g lv i j hij2, rangeFold_step g lv2 i j hij2,
      hk i le_rfl (by omega),
      ih (i + 1) j (by omega) (by omega) (fun k h1 h2 => hk k (by omega) h2)]

theorem rangeFold_merge (g : α → α → α)
    (hassoc : ∀ a b c, g (g a b) c = g a (g b c)) (lv : ℕ → α) :
    ∀ d i m j, m - i = d → i ≤ m → m < j →
      g (rangeFold g lv i m) (rangeFold g lv (m + 1) j) =
        rangeFold g lv i j := by
  intro d
  induction d with
  | zero =>
    intro i m j hd him hmj
    have hmi : m = i := by omega
    subst hmi
    rw [rangeFold_self, ← rangeFold_step g lv m j (by omega)]
  | succ dm ih =>
    intro i m j hd him hmj
    have him2 : i < m := by omega
    rw [rangeFold_step g lv i m him2, hassoc,
      ih (i + 1) m j (by omega) (by omega) hmj,
      ← rangeFold_step g lv i j (by omega)]

theorem glueOpt_isSome (s : SegTree α) (o1 o2 : Option α) (h1 : o1.isSome)
    (h2 : o2.isSome) : (glueOpt s o1 o2).isSome := by
  cases o1 with
  | none => simp at h1
  | some t1 =>
    cases o2 with
    | none => simp at h2
    | some t2 => rfl

theorem glueOpt_none_right (s : SegTree α) (o1 : Option α) :
    glueOpt s o1 none = none := by
  cases o1 with
  | none => rfl
  | some t1 => rfl

theorem glueOpt_some (s : SegTree α) (a b : α) :
    glueOpt s (some a) (some b) = some (s.glue a b) := rfl

/-- The stored value at a node v whose subtree covers the leaf block
[l, l + 2^h - 1] is the fold of the leaf values over that block, as long
as every internal node is the glue of its children. -/
theorem node_fold (s : SegTree α)
    (hassoc : ∀ a b c, s.glue (s.glue a b) c = s.glue a (s.glue b c))
    (hinv : ∀ w, 1 ≤ w → 2 * w + 1 < s.A.length →
      s.A.getD w s.identity =
        s.glue (s.A.getD (2 * w) s.identity) (s.A.getD (2 * w + 1) s.identity))
    (hlen : s.A.length = 2 * s.N) :
    ∀ h v l, v * 2 ^ h = s.N + l → (v + 1) * 2 ^ h ≤ 2 * s.N →
      s.A.getD v s.identity =
        rangeFold s.glue (fun k => s.A.getD (s.N + k) s.identity) l
          (l + 2 ^ h - 1) := by
  intro h
  induction h with
  | zero =>
    intro v l hv hb
    rw [pow_zero, mul_one] at hv
    rw [show l + 2 ^ 0 - 1 = l by norm_num, rangeFold_self, hv]
  | succ hm ih =>
    intro v l hv hb
    have h2 : (0 : ℕ) < 2 ^ hm := by positivity
    have hps : (2 : ℕ) ^ (hm + 1) = 2 ^ hm * 2 := pow_succ 2 hm
    have h21 : (2 : ℕ) ≤ 2 ^ (hm + 1) := by omega
    have hmul : (v + 1) * 2 ≤ (v + 1) * 2 ^ (hm + 1) :=
      Nat.mul_le_mul_left (v + 1) h21
    have hv1 : 1 ≤ v := by
      rcases Nat.eq_zero_or_pos v with h0 | h0
      · subst h0; simp at hv; omega
      · exact h0
    have hvint : 2 * v + 1 < s.A.length := by omega
    rw [hinv v hv1 hvint]
    have e1 : 2 * v * 2 ^ hm = s.N + l := by
      have e0 : 2 * v * 2 ^ hm = v * 2 ^ (hm + 1) := by rw [hps]; ring
      omega
    have e2 : (2 * v + 2) * 2 ^ hm = (v + 1) * 2 ^ (hm + 1) := by
      rw [hps]; ring
    have e3 : (2 * v + 1) * 2 ^ hm ≤ 2 * s.N := by
      have h4 : (2 * v + 1) * 2 ^ hm ≤ (2 * v + 2) * 2 ^ hm :=
        Nat.mul_le_mul_right _ (by omega)
      omega
    have e4 : (2 * v + 1) * 2 ^ hm = s.N + (l + 2 ^ hm) := by
      have e0 : (2 * v + 1) * 2 ^ hm = 2 * v * 2 ^ hm + 2 ^ hm := by ring
      omega
    have e5 : (2 * v + 1 + 1) * 2 ^ hm ≤ 2 * s.N := by
      have e0 : (2 * v + 1 + 1) * 2 ^ hm = (2 * v + 2) * 2 ^ hm := by ring
      omega
    rw [ih (2 * v) l e1 e3, ih (2 * v + 1) (l + 2 ^ hm) e4 e5]
    have hmerge := rangeFold_merge s.glue hassoc
      (fun k => s.A.getD (s.N + k) s.identity) ((l + 2 ^ hm - 1) - l) l
      (l + 2 ^ hm - 1) (l + 2 ^ (hm + 1) - 1) rfl (by omega) (by omega)
    rw [show (l + 2 ^ hm - 1) + 1 = l + 2 ^ hm by omega] at hmerge
    rw [show l + 2 ^ hm + 2 ^ hm - 1 = l + 2 ^ (hm + 1) - 1 by omega]
    exact hmerge

/-- Any query pair that stays inside the root block on the right, with
the recursion invariants blockLow ≤ i and blockLow ≤ j that the top call
establishes, reaches the base cases: fuel beyond the block height is
never exhausted. -/
theorem f_isSome (s : SegTree α) :
    ∀ h fuel v l i j, l ≤ i → l ≤ j → j ≤ l + 2 ^ h - 1 → h < fuel →
      (f s fuel v l (l + 2 ^ h - 1) i j).isSome := by
  intro h
  induction h with
  | zero =>
    intro fuel v l i j hli hlj hjr hf
    obtain ⟨fm, rfl⟩ : ∃ fm, fuel = fm + 1 := ⟨fuel - 1, by omega⟩
    rw [show l + 2 ^ 0 - 1 = l by norm_num] at hjr ⊢
    obtain rfl : l = j := by omega
    rw [f]
    by_cases hi : l = i
    · rw [if_pos ⟨hi, rfl⟩]; rfl
    · rw [if_neg (fun hand => hi hand.1), show (l + l) / 2 = l by omega,
        if_neg (by omega), if_neg (by omega)]
      rfl
  | succ hm ih =>
    intro fuel v l i j hli hlj hjr hf
    obtain ⟨fm, rfl⟩ : ∃ fm, fuel = fm + 1 := ⟨fuel - 1, by omega⟩
    rw [f]
    by_cases hbase : l = i ∧ l + 2 ^ (hm + 1) - 1 = j
    · rw [if_pos hbase]; rfl
    · rw [if_neg hbase]
      have h2 : (0 : ℕ) < 2 ^ hm := by positivity
      have hps : (2 : ℕ) ^ (hm + 1) = 2 ^ hm * 2 := pow_succ 2 hm
      rw [show (l + (l + 2 ^ (hm + 1) - 1)) / 2 = l + 2 ^ hm - 1 by omega]
      refine glueOpt_isSome s _ _ ?_ ?_
      · by_cases hil : i ≤ l + 2 ^ hm - 1
        · rw [if_pos hil]
          exact ih fm (LeftChild v) l i (min (l + 2 ^ hm - 1) j) hli
            (by omega) (by omega) (by omega)
        · rw [if_neg hil]; rfl
      · by_cases hjm : l + 2 ^ hm - 1 < j
        · rw [if_pos hjm]
          have hr := ih fm (RightChild v) (l + 2 ^ hm - 1 + 1)
            (max i (l + 2 ^ hm - 1 + 1)) j (le_max_right _ _) (by omega)
            (by omega) (by omega)
          rw [show l + 2 ^ hm - 1 + 1 + 2 ^ hm - 1 = l + 2 ^ (hm + 1) - 1
            by omega] at hr
          exact hr
        · rw [if_neg hjm]; rfl

/-- f computes the left-to-right fold of the leaf values over [i, j]
whenever the internal-node invariant holds, the operator is associative
with two-sided identity, the node v covers the block [l, l + 2^h - 1],
and l ≤ i ≤ j ≤ blockHigh. -/
theorem f_spec (s : SegTree α)
    (hassoc : ∀ a b c, s.glue (s.glue a b) c = s.glue a (s.glue b c))
    (hidl : ∀ x, s.glue s.identity x = x)
    (hidr : ∀ x, s.glue x s.identity = x)
    (hlen : s.A.length = 2 * s.N)
    (hinv : ∀ w, 1 ≤ w → 2 * w + 1 < s.A.length →
      s.A.getD w s.identity =
        s.glue (s.A.getD (2 * w) s.identity)
          (s.A.getD (2 * w + 1) s.identity)) :
    ∀ h fuel v l i j, v * 2 ^ h = s.N + l → (v + 1) * 2 ^ h ≤ 2 * s.N →
      l ≤ i → i ≤ j → j ≤ l + 2 ^ h - 1 → h < fuel →
      f s fuel v l (l + 2 ^ h - 1) i j =
        some (rangeFold s.glue (fun k => s.A.getD (s.N + k) s.identity) i j) := by
  intro h
  induction h with
  | zero =>
    intro fuel v l i j hv hb hli hij hjr hf
    obtain ⟨fm, rfl⟩ : ∃ fm, fuel = fm + 1 := ⟨fuel - 1, by omega⟩
    rw [pow_zero, mul_one] at hv
    rw [show l + 2 ^ 0 - 1 = l by norm_num] at hjr ⊢
    obtain rfl : l = i := by omega
    obtain rfl : l = j := by omega
    rw [f, if_pos ⟨rfl, rfl⟩, rangeFold_self, hv]
  | succ hm ih =>
    intro fuel v l i j hv hb hli hij hjr hf
    obtain ⟨fm, rfl⟩ : ∃ fm, fuel = fm + 1 := ⟨fuel - 1, by omega⟩
    have h2 : (0 : ℕ) < 2 ^ hm := by positivity
    have hps : (2 : ℕ) ^ (hm + 1) = 2 ^ hm * 2 := pow_succ 2 hm
    rw [f]
    by_cases hbase : l = i ∧ l + 2 ^ (hm + 1) - 1 = j
    · rw [if_pos hbase]
      obtain ⟨hbi, hbj⟩ := hbase
      subst hbi
      rw [← hbj]
      rw [node_fold s hassoc hinv hlen (hm + 1) v l hv hb]
    · rw [if_neg hbase]
      rw [show (l + (l + 2 ^ (hm + 1) - 1)) / 2 = l + 2 ^ hm - 1 by omega]
      have e1 : 2 * v * 2 ^ hm = s.N + l := by
        have e0 : 2 * v * 2 ^ hm = v * 2 ^ (hm + 1) := by rw [hps]; ring
        omega
      have e2 : (2 * v + 2) * 2 ^ hm = (v + 1) * 2 ^ (hm + 1) := by
        rw [hps]; ring
      have e3 : (2 * v + 1) * 2 ^ hm ≤ 2 * s.N := by
        have h4 : (2 * v + 1) * 2 ^ hm ≤ (2 * v + 2) * 2 ^ hm :=
          Nat.mul_le_mul_right _ (by omega)
        omega
      have e4 : (2 * v + 1) * 2 ^ hm = s.N + (l + 2 ^ hm) := by
        have e0 : (2 * v + 1) * 2 ^ hm = 2 * v * 2 ^ hm + 2 ^ hm := by ring
        omega
      have e5 : (2 * v + 1 + 1) * 2 ^ hm ≤ 2 * s.N := by
        have e0 : (2 * v + 1 + 1) * 2 ^ hm = (2 * v + 2) * 2 ^ hm := by ring
        omega
      have e4b : RightChild v * 2 ^ hm = s.N + (l + 2 ^ hm - 1 + 1) := by
        show (2 * v + 1) * 2 ^ hm = _
        rw [show l + 2 ^ hm - 1 + 1 = l + 2 ^ hm by omega]
        exact e4
      have e5b : (RightChild v + 1) * 2 ^ hm ≤ 2 * s.N := by
        show (2 * v + 1 + 1) * 2 ^ hm ≤ _
        exact e5
      have e1b : LeftChild v * 2 ^ hm = s.N + l := by
        show 2 * v * 2 ^ hm = _
        exact e1
      have e3b : (LeftChild v + 1) * 2 ^ hm ≤ 2 * s.N := by
        show (2 * v + 1) * 2 ^ hm ≤ _
        exact e3
      by_cases hjm : j ≤ l + 2 ^ hm - 1
      · rw [if_pos (by omega : i ≤ l + 2 ^ hm - 1),
          min_eq_right hjm,
          ih fm (LeftChild v) l i j e1b e3b hli hij hjm (by omega),
          if_neg (by omega : ¬ l + 2 ^ hm - 1 < j), glueOpt_some, hidr]
      · by_cases him : i ≤ l + 2 ^ hm - 1
        · rw [if_pos him, min_eq_left (by omega),
            ih fm (LeftChild v) l i (l + 2 ^ hm - 1) e1b e3b hli him
              le_rfl (by omega),
            if_pos (by omega : l + 2 ^ hm - 1 < j),
            max_eq_right (by omega : i ≤ l + 2 ^ hm - 1 + 1)]
          have hr := ih fm (RightChild v) (l + 2 ^ hm - 1 + 1)
            (l + 2 ^ hm - 1 + 1) j e4b e5b
            le_rfl (by omega) (by omega) (by omega)
          rw [show l + 2 ^ hm - 1 + 1 + 2 ^ hm - 1 = l + 2 ^ (hm + 1) - 1
            by omega] at hr
          rw [hr, glueOpt_some]
          have hmerge := rangeFold_merge s.glue hassoc
            (fun k => s.A.getD (s.N + k) s.identity) ((l + 2 ^ hm - 1) - i) i
            (l + 2 ^ hm - 1) j rfl him (by omega)
          rw [hmerge]
        · rw [if_neg him, if_pos (by omega : l + 2 ^ hm - 1 < j),
            max_eq_left (by omega : l + 2 ^ hm - 1 + 1 ≤ i)]
          have hr := ih fm (RightChild v) (l + 2 ^ hm - 1 + 1) i j e4b e5b
            (by omega) hij (by omega) (by omega)
          rw [show l + 2 ^ hm - 1 + 1 + 2 ^ hm - 1 = l + 2 ^ (hm + 1) - 1
            by omega] at hr
          rw [hr, glueOpt_some, hidl]

theorem lastVal_of_ge (e : α) :
    ∀ (ops : List (ℕ × α)) (n k : ℕ), (∀ op ∈ ops, op.1 < n) → n ≤ k →
      lastVal e ops k = e := by
  intro ops
  induction ops with
  | nil => intro n k hops hk; rfl
  | cons op ops ih =>
    intro n k hops hk
    have h1 : op.1 < n := hops op (List.mem_cons_self op ops)
    show ops.foldl _ (if op.1 = k then op.2 else e) = e
    rw [if_neg (by omega)]
    exact ih n k (fun op2 h2 => hops op2 (List.mem_cons_of_mem _ h2)) hk

/-- On any tree built by construction plus Assign calls with indices below
n, the query over any i ≤ j below the capacity returns the fold of the
stored leaf values over [i, j]. -/
theorem build_query (g : α → α → α) (e : α) (n : ℕ) (ops : List (ℕ × α))
    (hassoc : ∀ a b c, g (g a b) c = g a (g b c))
    (hidl : ∀ x, g e x = x) (hidr : ∀ x, g x e = x)
    (hops : ∀ op ∈ ops, op.1 < n) (i j fuel : ℕ) (hij : i ≤ j)
    (hj : j < SuperCeiling n) (hfuel : SuperCeiling n ≤ fuel) :
    RangeSum (buildTree g e n ops) fuel i j =
      some (rangeFold g
        (fun k =>
          (buildTree g e n ops).A.getD ((buildTree g e n ops).N + k) e)
        i j) := by
  have hG := build_good g e n ops (hidl e)
    (fun op h => lt_of_lt_of_le (hops op h) (SuperCeiling_ge n))
  obtain ⟨hid, hglue, hn, hN, hlen, hinv, hleaf⟩ := hG
  obtain ⟨K, hK⟩ := SuperCeiling_pow n
  have hassoc2 : ∀ a b c,
      (buildTree g e n ops).glue ((buildTree g e n ops).glue a b) c =
        (buildTree g e n ops).glue a ((buildTree g e n ops).glue b c) := by
    simp only [hglue]; exact hassoc
  have hidl2 : ∀ x,
      (buildTree g e n ops).glue (buildTree g e n ops).identity x = x := by
    simp only [hglue, hid]; exact hidl
  have hidr2 : ∀ x,
      (buildTree g e n ops).glue x (buildTree g e n ops).identity = x := by
    simp only [hglue, hid]; exact hidr
  have hinv2 : ∀ w, 1 ≤ w → 2 * w + 1 < (buildTree g e n ops).A.length →
      (buildTree g e n ops).A.getD w (buildTree g e n ops).identity =
        (buildTree g e n ops).glue
          ((buildTree g e n ops).A.getD (2 * w) (buildTree g e n ops).identity)
          ((buildTree g e n ops).A.getD (2 * w + 1)
            (buildTree g e n ops).identity) := by
    simp only [hglue, hid]; exact hinv
  have hlt := Nat.lt_two_pow K
  have hspec := f_spec (buildTree g e n ops) hassoc2 hidl2 hidr2 hlen hinv2
    K fuel 1 0 i j (by omega) (by omega)
    (Nat.zero_le i) hij (by omega) (by omega)
  unfold RangeSum
  rw [show (buildTree g e n ops).N - 1 = 0 + 2 ^ K - 1 by omega]
  rw [hspec]
  simp only [hglue, hid]

theorem f_stuck (s : SegTree α) : ∀ fuel v, f s fuel v 8 7 8 8 = none := by
  intro fuel
  induction fuel with
  | zero => intro v; rfl
  | succ fm ih =>
    intro v
    simp only [f]
    norm_num
    rw [ih]
    exact glueOpt_none_right s _

theorem f_stuck2 (s : SegTree α) : ∀ fuel v, f s fuel v 7 7 7 8 = none := by
  intro fuel
  cases fuel with
  | zero => intro v; rfl
  | succ fm =>
    intro v
    simp only [f]
    norm_num
    rw [f_stuck s fm]
    exact glueOpt_none_right s _

theorem f_stuck3 (s : SegTree α) : ∀ fuel v, f s fuel v 6 7 6 8 = none := by
  intro fuel
  cases fuel with
  | zero => intro v; rfl
  | succ fm =>
    intro v
    simp only [f]
    norm_num
    rw [f_stuck2 s fm]
    exact glueOpt_none_right s _

theorem f_stuck4 (s : SegTree α) : ∀ fuel v, f s fuel v 4 7 4 8 = none := by
  intro fuel
  cases fuel with
  | zero => intro v; rfl
  | succ fm =>
    intro v
    simp only [f]
    norm_num
    rw [f_stuck3 s fm]
    exact glueOpt_none_right s _

theorem f_stuck5 (s : SegTree α) : ∀ fuel v, f s fuel v 0 7 0 8 = none := by
  intro fuel
  cases fuel with
  | zero => intro v; rfl
  | succ fm =>
    intro v
    simp only [f]
    norm_num
    rw [f_stuck4 s fm]
    exact glueOpt_none_right s _

/-- Claim C1: for every tree built with logical size n, an associative
operator and its identity, and all indices with 0 ≤ i ≤ j < n,
RangeQuery(i, j) returns the left-to-right fold of the operator over the
current values at logical positions i..j, with the right-nested grouping
combine(A[i], combine(A[i+1], ...)) preserved. -/
theorem rangeQuery_fold (g : α → α → α) (e : α) (n : ℕ) (ops : List (ℕ × α))
    (hassoc : ∀ a b c, g (g a b) c = g a (g b c))
    (hidl : ∀ x, g e x = x) (hidr : ∀ x, g x e = x)
    (hops : ∀ op ∈ ops, op.1 < n) (i j fuel : ℕ) (hij : i ≤ j) (hj : j < n)
    (hfuel : SuperCeiling n ≤ fuel) :
    RangeSum (buildTree g e n ops) fuel i j =
      some (rangeFold g (lastVal e ops) i j) := by
  rw [build_query g e n ops hassoc hidl hidr hops i j fuel hij
    (lt_of_lt_of_le hj (SuperCeiling_ge n)) hfuel]
  have hG := build_good g e n ops (hidl e)
    (fun op h => lt_of_lt_of_le (hops op h) (SuperCeiling_ge n))
  obtain ⟨hid, hglue, hn, hN, hlen, hinv, hleaf⟩ := hG
  have hge := SuperCeiling_ge n
  congr 1
  exact rangeFold_congr g _ _ (j - i) i j rfl hij
    (fun k h1 h2 => hleaf k (by omega))

/-- Claim C1 witness: the fold law instantiated on the demonstration tree
with the query (2, 6). -/
theorem rangeQuery_fold_witness :
    RangeSum (buildTree glue 0 7 [(3, 7), (4, 1)]) 8 2 6 =
      some (rangeFold glue (lastVal 0 [(3, 7), (4, 1)]) 2 6) :=
  rangeQuery_fold glue 0 7 [(3, 7), (4, 1)]
    (fun a b c => add_assoc a b c) (fun x => zero_add x)
    (fun x => add_zero x) (by decide) 2 6 8 (by decide) (by decide)
    (by decide)

/-- Claim C2: after construction and any sequence of Assign calls with
indices in [0, n), every internal index w in [1, N) stores the glue of
its two children, every leaf in [N, N+n) holds the last value assigned to
its logical position (the identity if never assigned), and every padding
leaf in [N+n, 2N) still holds the identity. -/
theorem build_invariants (g : α → α → α) (e : α) (n : ℕ)
    (ops : List (ℕ × α)) (hee : g e e = e) (hops : ∀ op ∈ ops, op.1 < n) :
    (∀ w, 1 ≤ w → w < (buildTree g e n ops).N →
      (buildTree g e n ops).A.getD w e =
        g ((buildTree g e n ops).A.getD (2 * w) e)
          ((buildTree g e n ops).A.getD (2 * w + 1) e)) ∧
    (∀ k, k < n →
      (buildTree g e n ops).A.getD ((buildTree g e n ops).N + k) e =
        lastVal e ops k) ∧
    (∀ k, n ≤ k → k < (buildTree g e n ops).N →
      (buildTree g e n ops).A.getD ((buildTree g e n ops).N + k) e = e) := by
  have hG := build_good g e n ops hee
    (fun op h => lt_of_lt_of_le (hops op h) (SuperCeiling_ge n))
  obtain ⟨hid, hglue, hn, hN, hlen, hinv, hleaf⟩ := hG
  have hge := SuperCeiling_ge n
  refine ⟨?_, ?_, ?_⟩
  · intro w h1 h2
    exact hinv w h1 (by omega)
  · intro k hk
    exact hleaf k (by omega)
  · intro k hk1 hk2
    rw [hleaf k hk2]
    exact lastVal_of_ge e ops n k hops hk1

/-- Claim C2 witness: the leaf part of the invariants instantiated on the
demonstration tree at logical position 3. -/
theorem build_invariants_witness :
    (buildTree glue 0 7 [(3, 7), (4, 1)]).A.getD
      ((buildTree glue 0 7 [(3, 7), (4, 1)]).N + 3) 0 =
      lastVal 0 [(3, 7), (4, 1)] 3 :=
  (build_invariants glue 0 7 [(3, 7), (4, 1)] (by decide) (by decide)).2.1
    3 (by decide)

/-- Claim C3 counterexample: Assign with index 7 on the n = 7 tree (an
index outside [0, n)) completes and writes the padding leaf at storage
index 15 instead of signaling an OutOfRange error, and RangeQuery(5, 2)
with i > j returns the value 0 instead of signaling an error; the code
has no error channel at all. -/
theorem no_error_signaled :
    (Assign (SegTreeInit glue 0 7) 7 5).A.getD 15 0 = 5 ∧
    RangeSum (SegTreeInit glue 0 7) 10 5 2 = some 0 :=
  ⟨by decide, by decide⟩

/-- Claim C3 amended: neither operation checks its arguments against n
and no error kind exists: Assign with any index i < N (in particular the
out-of-logical-range indices n ≤ i < N) completes normally and overwrites
the leaf at storage position i + N, and RangeQuery called with i > j on
the demonstration tree returns a plain value built from identity
contributions rather than an error. -/
theorem assign_unchecked (s : SegTree α) (i : ℕ) (x : α)
    (hlen : s.A.length = 2 * s.N) (hi : i < s.N) :
    (Assign s i x).A.getD (i + s.N) s.identity = x ∧
    (Assign s i x).A.length = s.A.length ∧
    RangeSum (SegTreeInit glue 0 7) 10 5 2 = some 0 := by
  refine ⟨?_, ?_, by decide⟩
  · show (updLoopAux s.glue s.identity (i + s.N) (s.A.set (i + s.N) x)
      (Parent (i + s.N))).getD (i + s.N) s.identity = x
    rw [updLoopAux_high _ _ _ _ _ _ _ (by unfold Parent; omega),
      getD_set_self _ _ _ _ (by omega)]
  · show (updLoopAux s.glue s.identity (i + s.N) (s.A.set (i + s.N) x)
      (Parent (i + s.N))).length = s.A.length
    rw [updLoopAux_length, List.length_set]

/-- Claim C3 amended witness: the unchecked Assign instantiated at the
out-of-logical-range index 7 of the n = 7 tree. -/
theorem assign_unchecked_witness :
    (Assign (SegTreeInit glue 0 7) 7 5).A.getD
      (7 + (SegTreeInit glue 0 7).N) (SegTreeInit glue 0 7).identity = 5 ∧
    (Assign (SegTreeInit glue 0 7) 7 5).A.length =
      (SegTreeInit glue 0 7).A.length ∧
    RangeSum (SegTreeInit glue 0 7) 10 5 2 = some 0 :=
  assign_unchecked (SegTreeInit glue 0 7) 7 5 (by decide) (by decide)

/-- Claim C4 counterexample: Assign(7, 5) on the freshly built n = 7 tree
neither completes preserving all invariants (the padding leaf at storage
index 15, required to stay at the identity 0, ends up holding 5) nor
fails before mutating (the storage does change), so the operation is not
atomic in the claimed sense. -/
theorem assign_not_atomic :
    ¬ ((Assign (SegTreeInit glue 0 7) 7 5).A.getD 15 0 =
        (SegTreeInit glue 0 7).identity ∨
      (Assign (SegTreeInit glue 0 7) 7 5).A = (SegTreeInit glue 0 7).A) := by
  decide

/-- Claim C4 amended: no operation ever fails, and an Assign with index
in [0, n) fully completes preserving every state invariant: the tree
stays Good, and positions at or beyond n keep their previous recorded
value (so never-assigned padding stays at the identity); only an Assign
with index in [n, N) completes while breaking the padding invariant, as
the counterexample shows. -/
theorem assign_atomic_valid (g : α → α → α) (e : α) (n : ℕ) (val : ℕ → α)
    (s : SegTree α) (i : ℕ) (x : α) (hG : Good g e n val s) (hi : i < n) :
    Good g e n (fun k => if i = k then x else val k) (Assign s i x) ∧
    ∀ k, n ≤ k → (if i = k then x else val k) = val k := by
  have hiN : i < s.N := by
    obtain ⟨h1, h2, h3, hN, h5, h6, h7⟩ := hG
    have := SuperCeiling_ge n
    omega
  exact ⟨Assign_good g e n val s i x hG hiN, fun k hk => if_neg (by omega)⟩

/-- Claim C4 amended witness: a valid Assign at index 2 on the fresh
n = 7 tree keeps the invariants. -/
theorem assign_atomic_valid_witness :
    Good glue 0 7 (fun k => if 2 = k then 9 else (0 : ℤ))
      (Assign (SegTreeInit glue 0 7) 2 9) ∧
    ∀ k, 7 ≤ k → (if 2 = k then (9 : ℤ) else 0) = 0 :=
  assign_atomic_valid glue 0 7 (fun _ => 0) (SegTreeInit glue 0 7) 2 9
    (init_good glue 0 7 (by decide)) (by decide)

/-- Claim C5: on the tree built with n = 7, integer addition and identity
0, after Assign(3, 7) and Assign(4, 1), the four demonstration queries
(2,7), (0,3), (4,5) and (5,5) return 8, 7, 1 and 0. -/
theorem demo_queries :
    RangeSum (buildTree glue 0 7 [(3, 7), (4, 1)]) 10 2 7 = some 8 ∧
    RangeSum (buildTree glue 0 7 [(3, 7), (4, 1)]) 10 0 3 = some 7 ∧
    RangeSum (buildTree glue 0 7 [(3, 7), (4, 1)]) 10 4 5 = some 1 ∧
    RangeSum (buildTree glue 0 7 [(3, 7), (4, 1)]) 10 5 5 = some 0 :=
  ⟨by decide, by decide, by decide, by decide⟩

/-- Claim C6: construction with logical size n sets the capacity to
SuperCeiling n, allocates a backing sequence of length 2*N whose every
slot holds the identity, and fixes the identity element itself. -/
theorem init_state (g : α → α → α) (e : α) (n : ℕ) :
    (SegTreeInit g e n).N = SuperCeiling n ∧
    (SegTreeInit g e n).A.length = 2 * (SegTreeInit g e n).N ∧
    (SegTreeInit g e n).A = List.replicate (2 * (SegTreeInit g e n).N) e ∧
    (∀ k, (SegTreeInit g e n).A.getD k e = e) ∧
    (SegTreeInit g e n).identity = e :=
  ⟨rfl, by simp [SegTreeInit], rfl, fun k => getD_replicate_self _ _ _, rfl⟩

/-- Claim C7: SuperCeiling n is a power of two, is at least n, equals n
on powers of two, is monotonic, and SuperCeiling 0 = 1. -/
theorem superCeiling_spec (n : ℕ) :
    (∃ k, SuperCeiling n = 2 ^ k) ∧
    n ≤ SuperCeiling n ∧
    ((∃ k, n = 2 ^ k) → SuperCeiling n = n) ∧
    (∀ m, m ≤ n → SuperCeiling m ≤ SuperCeiling n) ∧
    SuperCeiling 0 = 1 := by
  refine ⟨SuperCeiling_pow n, SuperCeiling_ge n, ?_,
    fun m hm => SuperCeiling_mono m n hm, rfl⟩
  rintro ⟨k, rfl⟩
  exact SuperCeiling_of_pow k

/-- Claim C7 witness: the idempotence and monotonicity parts instantiated
at concrete powers of two. -/
theorem superCeiling_spec_witness :
    SuperCeiling 4 = 4 ∧ SuperCeiling 3 ≤ SuperCeiling 4 :=
  ⟨(superCeiling_spec 4).2.2.1 ⟨2, by decide⟩,
    (superCeiling_spec 4).2.2.2.1 3 (by decide)⟩

/-- Claim C8 counterexample: on the n = 7 tree (capacity N = 8) the query
decomposition does not terminate for the input pair (0, 8): the recursion
walks down the right spine with j beyond every block, never reaches a
base case, and returns none at every fuel; so termination fails for that
input pair. -/
theorem query_diverges : ¬ Terminates (SegTreeInit glue 0 7) 0 8 := by
  intro h
  obtain ⟨fuel, hsome⟩ := h
  rw [show RangeSum (SegTreeInit glue 0 7) fuel 0 8 =
    f (SegTreeInit glue 0 7) fuel 1 0 7 0 8 from rfl, f_stuck5] at hsome
  simp at hsome

/-- Claim C8 amended: the query decomposition terminates for every input
pair (i, j) with j < N, which covers every pair the spec admits, while a
pair with j at or beyond N makes the recursion run forever (see the
counterexample); Assign's ancestor walk always completes, its index
strictly halving at each step. -/
theorem query_terminates (s : SegTree α) (K i j : ℕ) (hN : s.N = 2 ^ K)
    (hj : j < s.N) :
    Terminates s i j ∧ ∀ x, (Assign s i x).A.length = s.A.length := by
  constructor
  · refine ⟨K + 1, ?_⟩
    have h := f_isSome s K (K + 1) 1 0 i j (Nat.zero_le i) (Nat.zero_le j)
      (by omega) (by omega)
    rw [show (0 : ℕ) + 2 ^ K - 1 = 2 ^ K - 1 by omega] at h
    show (f s (K + 1) 1 0 (s.N - 1) i j).isSome
    rw [hN]
    exact h
  · intro x
    show (updLoopAux s.glue s.identity (i + s.N) (s.A.set (i + s.N) x)
      (Parent (i + s.N))).length = s.A.length
    rw [updLoopAux_length, List.length_set]

/-- Claim C8 amended witness: the query (0, 7) on the fresh n = 7 tree
terminates. -/
theorem query_terminates_witness :
    Terminates (SegTreeInit glue 0 7) 0 7 ∧
    ∀ x, (Assign (SegTreeInit glue 0 7) 0 x).A.length =
      (SegTreeInit glue 0 7).A.length :=
  query_terminates (SegTreeInit glue 0 7) 3 0 7 (by decide) (by decide)

/-- Claim C9: the public query accepts ranges extending into the padding
region: for 0 ≤ i ≤ j ≤ N-1 (j possibly at or beyond n) on a tree built
with valid assignments, RangeSum(i, j) completes with a value, namely the
fold of the operator over the storage leaves i..j, and every
never-assigned padding leaf still holds the identity, so it contributes
the identity to that fold (the demonstration relies on this by calling
RangeSum(2, 7) on a tree of logical size 7). -/
theorem rangeQuery_padding (g : α → α → α) (e : α) (n : ℕ)
    (ops : List (ℕ × α))
    (hassoc : ∀ a b c, g (g a b) c = g a (g b c))
    (hidl : ∀ x, g e x = x) (hidr : ∀ x, g x e = x)
    (hops : ∀ op ∈ ops, op.1 < n) (i j fuel : ℕ) (hij : i ≤ j)
    (hj : j < SuperCeiling n) (hfuel : SuperCeiling n ≤ fuel) :
    RangeSum (buildTree g e n ops) fuel i j =
      some (rangeFold g
        (fun k =>
          (buildTree g e n ops).A.getD ((buildTree g e n ops).N + k) e)
        i j) ∧
    (∀ k, n ≤ k → k < (buildTree g e n ops).N →
      (buildTree g e n ops).A.getD ((buildTree g e n ops).N + k) e = e) := by
  refine ⟨build_query g e n ops hassoc hidl hidr hops i j fuel hij hj hfuel,
    ?_⟩
  have hG := build_good g e n ops (hidl e)
    (fun op h => lt_of_lt_of_le (hops op h) (SuperCeiling_ge n))
  obtain ⟨hid, hglue, hn, hN, hlen, hinv, hleaf⟩ := hG
  intro k hk1 hk2
  rw [hleaf k hk2]
  exact lastVal_of_ge e ops n k hops hk1

/-- Claim C9 witness: the demonstration query (2, 7) on the n = 7 tree,
whose range ends inside the padding. -/
theorem rangeQuery_padding_witness :
    RangeSum (buildTree glue 0 7 [(3, 7), (4, 1)]) 8 2 7 =
      some (rangeFold glue
        (fun k =>
          (buildTree glue 0 7 [(3, 7), (4, 1)]).A.getD
            ((buildTree glue 0 7 [(3, 7), (4, 1)]).N + k) 0) 2 7) ∧
    (∀ k, 7 ≤ k → k < (buildTree glue 0 7 [(3, 7), (4, 1)]).N →
      (buildTree glue 0 7 [(3, 7), (4, 1)]).A.getD
        ((buildTree glue 0 7 [(3, 7), (4, 1)]).N + k) 0 = 0) :=
  rangeQuery_padding glue 0 7 [(3, 7), (4, 1)]
    (fun a b c => add_assoc a b c) (fun x => zero_add x)
    (fun x => add_zero x) (by decide) 2 7 8 (by decide) (by decide)
    (by decide)

/-- Claim C10: in the src/segtree.c variant SegTreeInit never writes the
identity field, and a query whose decomposition uses identity
contributions reads that indeterminate field: on the fresh n = 7 tree the
query (5, 5) returns three glue-applications of the field, so its result
varies with the uninitialized value, and the zero-filled storage alone
does not force the result that identity = 0 would give. -/
theorem variant_identity_dependence :
    (∀ idv : ℤ, RangeSum (SegTreeInitV idv 7) 10 5 5 = some (3 * idv)) ∧
    RangeSum (SegTreeInitV 1 7) 10 5 5 ≠
      RangeSum (SegTreeInitV 0 7) 10 5 5 := by
  constructor
  · intro idv
    have h : RangeSum (SegTreeInitV idv 7) 10 5 5 =
        some (idv + ((idv + 0) + idv)) := by
      show f (SegTreeInitV idv 7) 10 1 0 7 5 5 = _
      rfl
    rw [h]
    congr 1
    ring
  · decide

end Seg
